import Mathlib

/-!
# Verification of the go-metrics core (EWMA, Meter, Histogram)

Shallow embedding of the metrics library.  Go `float64` values are modelled
as exact rationals (`ℚ`); at the points where IEEE-754 semantics can differ
from exact arithmetic (division whose divisor may be zero, the NaN sentinels
returned by accessors) the embedding uses the type `GoFloat` below, which
has explicit NaN and infinity values.  `math.Sqrt` on a non-negative finite
argument is modelled by an arbitrary function parameter `f : ℚ → ℚ`, since
an exact square root is not rational; its NaN/infinity behaviour is fixed.
-/

/-- Result of a Go floating-point computation: NaN, ±Inf, or a finite value
(modelled exactly as a rational). -/
inductive GoFloat where
  | nan : GoFloat
  | inf : GoFloat
  | neginf : GoFloat
  | val : ℚ → GoFloat
deriving DecidableEq

/-- IEEE-754 division of finite values: `0/0` is NaN, `a/0` for `a ≠ 0` is
`±Inf`, otherwise the exact quotient. -/
def fdiv (a b : ℚ) : GoFloat :=
  if b = 0 then
    if a = 0 then GoFloat.nan else if 0 < a then GoFloat.inf else GoFloat.neginf
  else GoFloat.val (a / b)

/-- Model of `math.Sqrt` lifted to `GoFloat`: NaN on NaN and on negative arguments,
`+Inf` on `+Inf`; on a non-negative finite argument it returns the value of
the model parameter `f`. -/
def mathSqrt (f : ℚ → ℚ) : GoFloat → GoFloat
  | GoFloat.nan => GoFloat.nan
  | GoFloat.inf => GoFloat.inf
  | GoFloat.neginf => GoFloat.nan
  | GoFloat.val q => if q < 0 then GoFloat.nan else GoFloat.val (f q)

/-- Go's `int(x)` conversion from `float64`: truncation toward zero. -/
def itrunc (q : ℚ) : ℤ :=
  if 0 ≤ q then ⌊q⌋ else ⌈q⌉

/-! ## EWMA (metrics/ewma.go) -/

/-- Constant `1 - math.Exp(-5 / 60.0)`, as the decimal literal in the source. -/
def M1_ALPHA : ℚ := 0.07995558537067670723530454779393039643764495849609

/-- Constant `1 - math.Exp(-5 / 60.0 / 5)`, as the decimal literal in the source. -/
def M5_ALPHA : ℚ := 0.01652854617838250828043555884505622088909149169922

/-- Constant `1 - math.Exp(-5 / 60.0 / 15)`, as the decimal literal in the source. -/
def M15_ALPHA : ℚ := 0.00554015199510327072118798241717740893363952636719

/-- An exponentially-weighted moving average (struct `EWMA`). -/
structure EWMA where
  interval : ℕ
  alpha : ℚ
  uncounted : ℚ
  rate : ℚ
deriving DecidableEq

def NewEWMA (interval : ℕ) (alpha : ℚ) : EWMA :=
  { interval := interval, alpha := alpha, uncounted := 0, rate := 0 }

def EWMA.Update (self : EWMA) (value : ℚ) : EWMA :=
  { self with uncounted := self.uncounted + value }

/-- Operation `EWMA.Tick`: read and reset the accumulator, form the instantaneous rate
`count / interval`, and fold it into the smoothed rate; the source branches
on `self.rate == 0.0`. -/
def EWMA.Tick (self : EWMA) : EWMA :=
  if self.rate = 0 then
    { self with uncounted := 0, rate := self.uncounted / (self.interval : ℚ) }
  else
    { self with uncounted := 0, rate := self.rate + self.alpha * (self.uncounted / (self.interval : ℚ) - self.rate) }

def EWMA.Rate (self : EWMA) : ℚ :=
  self.rate

/-! ## Meter (first file of src/unnamed/part_000)

The Meter owns three EWMAs, a monotone counter, a start timestamp, a
`time.Ticker` and a stop channel, and a background goroutine `tickWatcher`.
Timestamps are modelled as rational numbers of seconds on an absolute axis
whose origin is Go's zero `time.Time`; the constructor takes the current
time `now` as a parameter.  The lifecycle state visible to `Stop` and to
`tickWatcher` is modelled with three booleans (`ticker == nil`,
`tickerStopChan == nil`, "the stop channel has been closed") plus a flag for
whether the watcher goroutine is still running; closing a closed or nil
channel is a Go runtime panic, modelled as `Except.error`. -/

inductive GoPanic where
  | closeOfClosedChannel : GoPanic
  | closeOfNilChannel : GoPanic
deriving DecidableEq

structure Meter where
  m1Rate : EWMA
  m5Rate : EWMA
  m15Rate : EWMA
  count : ℕ
  startTime : ℚ
  tickerNil : Bool
  stopChanNil : Bool
  stopChanClosed : Bool
  watcherRunning : Bool
deriving DecidableEq

/-- Constructor `NewMeter`: the struct literal in the source initialises the EWMAs (5
second interval), the ticker and the stop channel, and starts the watcher —
but it does NOT set `startTime`, which therefore stays at Go's zero
`time.Time` (the origin of our time axis, `0`), not at `now`. -/
def NewMeter (now : ℚ) : Meter :=
  { m1Rate := NewEWMA 5 M1_ALPHA
    m5Rate := NewEWMA 5 M5_ALPHA
    m15Rate := NewEWMA 5 M15_ALPHA
    count := 0
    startTime := 0
    tickerNil := false
    stopChanNil := false
    stopChanClosed := false
    watcherRunning := true }

/-- Operation `Meter.tick`: tick the three EWMAs in order. -/
def Meter.tick (m : Meter) : Meter :=
  { m with m1Rate := m.m1Rate.Tick, m5Rate := m.m5Rate.Tick, m15Rate := m.m15Rate.Tick }

/-- Operation `Meter.Stop`: `if m.ticker != nil { m.ticker.Stop(); close(m.tickerStopChan) }`.
Closing the stop channel when it is nil or already closed panics. -/
def Meter.Stop (m : Meter) : Except GoPanic Meter :=
  if m.tickerNil then Except.ok m
  else if m.stopChanNil then Except.error GoPanic.closeOfNilChannel
  else if m.stopChanClosed then Except.error GoPanic.closeOfClosedChannel
  else Except.ok { m with stopChanClosed := true }

/-- The exit path of the `tickWatcher` goroutine: once the stop channel is
closed the watcher's `select` receives from it, breaks out of the loop, and
sets `m.ticker = nil` and `m.tickerStopChan = nil`.  Whether this step has
run before a subsequent `Stop` call depends on goroutine scheduling. -/
def Meter.tickWatcherFinish (m : Meter) : Meter :=
  if m.watcherRunning && m.stopChanClosed then
    { m with tickerNil := true, stopChanNil := true, watcherRunning := false }
  else m

def Meter.Update (m : Meter) (delta : ℕ) : Meter :=
  { m with count := m.count + delta
           m1Rate := m.m1Rate.Update (delta : ℚ)
           m5Rate := m.m5Rate.Update (delta : ℚ)
           m15Rate := m.m15Rate.Update (delta : ℚ) }

def Meter.Count (m : Meter) : ℕ :=
  m.count

/-- Operation `Meter.MeanRate` at the current time `now`:
`float64(count) / (now - startTime).Seconds()`, with no guard on the
divisor. -/
def Meter.MeanRate (m : Meter) (now : ℚ) : GoFloat :=
  fdiv (m.Count : ℚ) (now - m.startTime)

/-! ## Claim C1 -/

/-- C1 counterexample: the claim says that on every tick after the first,
`rate += alpha * (instantRate - rate)` regardless of the current rate.  Take
`NewEWMA 5 (1/2)`, tick once with nothing accumulated (rate stays `0`), then
`Update 10` and tick again.  The claim predicts
`rate = 0 + (1/2) * (10/5 - 0) = 1`, but the code re-takes the
initialisation branch (`rate == 0.0`) and sets `rate = 2`. -/
theorem C1_counterexample :
    ((((NewEWMA 5 (1/2)).Tick).Update 10).Tick).rate = 2 ∧
      ((((NewEWMA 5 (1/2)).Tick).Update 10).Tick).rate ≠
        (((NewEWMA 5 (1/2)).Tick).Update 10).rate +
          (1/2) * ((((NewEWMA 5 (1/2)).Tick).Update 10).uncounted / 5 -
            (((NewEWMA 5 (1/2)).Tick).Update 10).rate) := by
  norm_num [NewEWMA, EWMA.Tick, EWMA.Update]

/-- C1 (amended): `Tick()` converts the accumulator into the instantaneous
rate `accumulator / interval`, resets the accumulator to zero, and folds it
into the smoothed rate; the initialisation branch is taken whenever the
current smoothed rate is exactly `0.0` (not only on the very first tick):
then `rate := instantRate`, and otherwise
`rate += alpha * (instantRate - rate)`. -/
theorem C1_tick_amended (e : EWMA) :
    (e.Tick).uncounted = 0 ∧
    (e.Tick).interval = e.interval ∧
    (e.Tick).alpha = e.alpha ∧
    (e.rate = 0 → (e.Tick).rate = e.uncounted / (e.interval : ℚ)) ∧
    (e.rate ≠ 0 →
      (e.Tick).rate = e.rate + e.alpha * (e.uncounted / (e.interval : ℚ) - e.rate)) := by
  unfold EWMA.Tick
  by_cases h : e.rate = 0
  · rw [if_pos h]
    exact ⟨rfl, rfl, rfl, fun _ => rfl, fun hne => absurd h hne⟩
  · rw [if_neg h]
    exact ⟨rfl, rfl, rfl, fun h0 => absurd h0 h, fun _ => rfl⟩

/-- C1 witness: the amended tick equations evaluated on a concrete EWMA
with a non-zero current rate. -/
theorem C1_tick_amended_witness :
    (({ interval := 5, alpha := 1/2, uncounted := 10, rate := 4 } : EWMA).Tick).uncounted = 0 ∧
      (({ interval := 5, alpha := 1/2, uncounted := 10, rate := 4 } : EWMA).Tick).rate =
        4 + (1/2) * (10 / (5 : ℚ) - 4) := by
  refine ⟨(C1_tick_amended _).1, ?_⟩
  have h := (C1_tick_amended ({ interval := 5, alpha := 1/2, uncounted := 10, rate := 4 } : EWMA)).2.2.2.2
  simpa using h (by norm_num)

/-! ## Claim C2 -/

/-- C2: double `Stop` is not always a no-op.  After `NewMeter` and a first
`Stop()` (which closes the stop channel), a second `Stop()` issued before
the `tickWatcher` goroutine has been scheduled still sees `ticker != nil`
and executes `close(m.tickerStopChan)` on the already-closed channel — a Go
runtime panic.  Only if the watcher's exit path runs in between (second
conjunct) is the second `Stop` the no-op the claim describes. -/
theorem C2_double_stop_panics :
    ((NewMeter 0).Stop).bind Meter.Stop = Except.error GoPanic.closeOfClosedChannel ∧
      (((NewMeter 0).Stop).map Meter.tickWatcherFinish).bind Meter.Stop =
        ((NewMeter 0).Stop).map Meter.tickWatcherFinish := by
  constructor
  · rfl
  · rfl

/-! ## Claim C3 -/

/-- C3: `MeanRate` does not measure time from the Meter's construction and
does not guard the zero-elapsed case.  A Meter constructed at absolute time
`100` (seconds after Go's zero `time.Time`) with one `Update(5)`, queried at
that same instant (elapsed time since construction = 0), returns
`5 / (100 - 0) = 1/20` — the divisor is the time since the zero `time.Time`,
because the constructor never initialises `startTime`; the result is neither
`0` nor NaN as the claim requires for zero elapsed time. -/
theorem C3_meanrate_bug :
    (NewMeter 100).startTime = 0 ∧
      ((NewMeter 100).Update 5).MeanRate 100 = GoFloat.val (1/20) ∧
      GoFloat.val (1/20) ≠ GoFloat.val 0 ∧
      GoFloat.val (1/20) ≠ GoFloat.nan := by
  refine ⟨rfl, ?_, by simp, by simp⟩
  norm_num [NewMeter, Meter.Update, Meter.MeanRate, Meter.Count, fdiv]

/-! ## Histogram (second file of src/unnamed/part_000)

The `Sample` interface's two implementations (`NewUniformSample`,
`NewExponentiallyDecayingSample`) are not part of the available source;
only the interface is.  A Sample is therefore represented by the sequence
its `Values()` accessor returns, its `Update` is an arbitrary function
parameter `su` on that sequence, and — modelled from the spec: "`Clear()`
resets to empty" (the Sample contract) — its `Clear` produces the empty
sequence. -/

structure Histogram where
  sample : List ℚ
  min : ℚ
  max : ℚ
  sum : ℚ
  count : ℕ
  varianceM : ℚ
  varianceS : ℚ
deriving DecidableEq

def NewHistogram (sample : List ℚ) : Histogram :=
  { sample := sample, min := 0, max := 0, sum := 0, count := 0, varianceM := 0, varianceS := 0 }

/-- Operation `Histogram.Clear`: clear the owned sample and zero every scalar field. -/
def Histogram.Clear (self : Histogram) : Histogram :=
  { sample := [], min := 0, max := 0, sum := 0, count := 0, varianceM := 0, varianceS := 0 }

/-- Operation `Histogram.Update`: increment count, accumulate the sum, forward the
value to the owned sample (`su` models the sample's `Update`), set min, max
and the Welford mean on the first observation, and otherwise update
min/max and the Welford accumulators
`M' = M + (value - M)/count`, `S' = S + (value - M)*(value - M')`. -/
def Histogram.Update (su : List ℚ → ℚ → List ℚ) (self : Histogram) (value : ℚ) : Histogram :=
  let count := self.count + 1
  let sum := self.sum + value
  let sample := su self.sample value
  if count = 1 then
    { sample := sample, min := value, max := value, sum := sum, count := count, varianceM := value, varianceS := self.varianceS }
  else
    let mn := if value < self.min then value else self.min
    let mx := if self.max < value then value else self.max
    let old_m := self.varianceM
    let m' := old_m + ((value - old_m) / (count : ℚ))
    { sample := sample, min := mn, max := mx, sum := sum, count := count, varianceM := m', varianceS := self.varianceS + (value - old_m) * (value - m') }

/-- Feed a sequence of observations left to right. -/
def Histogram.UpdateMany (su : List ℚ → ℚ → List ℚ) (self : Histogram) (values : List ℚ) : Histogram :=
  values.foldl (Histogram.Update su) self

/-- A concrete Sample update (retain everything), used to instantiate
theorems quantified over the sample's behaviour. -/
def sampleAppend (l : List ℚ) (v : ℚ) : List ℚ :=
  l ++ [v]

def Histogram.Count (self : Histogram) : ℕ :=
  self.count

def Histogram.Sum (self : Histogram) : ℚ :=
  self.sum

def Histogram.Min (self : Histogram) : GoFloat :=
  if self.count = 0 then GoFloat.nan else GoFloat.val self.min

def Histogram.Max (self : Histogram) : GoFloat :=
  if self.count = 0 then GoFloat.nan else GoFloat.val self.max

def Histogram.Mean (self : Histogram) : ℚ :=
  if 0 < self.count then self.sum / (self.count : ℚ) else 0

/-- Operation `Histogram.StdDev`: `math.Sqrt(varianceS / float64(count-1))` when
`count > 0` (note: at `count = 1` this divides `0.0` by `0.0`), else `0`. -/
def Histogram.StdDev (f : ℚ → ℚ) (self : Histogram) : GoFloat :=
  if 0 < self.count then mathSqrt f (fdiv self.varianceS ((self.count - 1 : ℕ) : ℚ)) else GoFloat.val 0

def Histogram.Variance (self : Histogram) : GoFloat :=
  if self.count ≤ 1 then GoFloat.val 0 else fdiv self.varianceS ((self.count - 1 : ℕ) : ℚ)

/-- Ascending sort of the snapshot (`sort.Sort(sort.Float64Slice(...))`). -/
def sortAsc (l : List ℚ) : List ℚ :=
  List.insertionSort (· ≤ ·) l

/-- The loop body of `Histogram.Percentiles` for one requested percentile
`p`, over the sorted snapshot `values`:
`pos := p * float64(len(values)+1)`, `ipos := int(pos)`, then the
three-way switch of the source (Go indexing `values[i]` is modelled with
`List.getD`; every index used is in bounds whenever `values` is
non-empty). -/
def percentileScore (values : List ℚ) (p : ℚ) : ℚ :=
  let pos := p * ((values.length : ℚ) + 1)
  let ipos := itrunc pos
  if ipos < 1 then values.headD 0
  else if (values.length : ℤ) ≤ ipos then values.getLastD 0
  else
    let lower := values.getD (ipos - 1).toNat 0
    let upper := values.getD ipos.toNat 0
    lower + (pos - (⌊pos⌋ : ℚ)) * (upper - lower)

/-- Operation `Histogram.Percentiles`: a zero-filled result when `count == 0`,
otherwise one interpolated score per requested percentile over the sorted
snapshot of the sample's values. -/
def Histogram.Percentiles (self : Histogram) (percentiles : List ℚ) : List ℚ :=
  if self.count = 0 then percentiles.map (fun _ => 0)
  else percentiles.map (percentileScore (sortAsc self.sample))

def Histogram.Values (self : Histogram) : List ℚ :=
  self.sample

/-- The percentile selection rule as the spec states it, over the sorted
snapshot: `pos = p * (n + 1)`; if `pos < 1` the minimum (first) element, if
`pos ≥ n` the maximum (last) element, otherwise linear interpolation
between the elements at ranks `⌊pos⌋` and `⌊pos⌋ + 1` (1-indexed) with the
fractional part of `pos` as the weight. -/
def specPercentile (sorted : List ℚ) (p : ℚ) : ℚ :=
  let n := sorted.length
  let pos := p * ((n : ℚ) + 1)
  if pos < 1 then sorted.headD 0
  else if (n : ℚ) ≤ pos then sorted.getLastD 0
  else
    let k := ⌊pos⌋
    let lower := sorted.getD (k - 1).toNat 0
    let upper := sorted.getD k.toNat 0
    lower + (pos - (k : ℚ)) * (upper - lower)

/-! ## Claim C7 -/

/-- C7: on an empty Histogram (`count = 0`), `Min()` and `Max()` are NaN
and `Mean()`, `Variance()`, `StdDev()` are `0`. -/
theorem C7_empty_sentinels (f : ℚ → ℚ) (h : Histogram) (hc : h.count = 0) :
    h.Min = GoFloat.nan ∧ h.Max = GoFloat.nan ∧ h.Mean = 0 ∧
      h.Variance = GoFloat.val 0 ∧ h.StdDev f = GoFloat.val 0 := by
  simp [Histogram.Min, Histogram.Max, Histogram.Mean, Histogram.Variance, Histogram.StdDev, hc]

/-- C7 witness: the sentinels on a freshly constructed Histogram. -/
theorem C7_empty_sentinels_witness :
    (NewHistogram []).Min = GoFloat.nan ∧ (NewHistogram []).Max = GoFloat.nan ∧
      (NewHistogram []).Mean = 0 ∧ (NewHistogram []).Variance = GoFloat.val 0 ∧
      (NewHistogram []).StdDev id = GoFloat.val 0 :=
  C7_empty_sentinels id (NewHistogram []) rfl

/-! ## Claim C9 -/

/-- C9: after `Clear()` every accessor agrees with a freshly constructed
Histogram over an empty Sample. -/
theorem C9_clear_resets (f : ℚ → ℚ) (h : Histogram) (ps : List ℚ) :
    (h.Clear).Count = (NewHistogram []).Count ∧
    (h.Clear).Sum = (NewHistogram []).Sum ∧
    (h.Clear).Min = (NewHistogram []).Min ∧
    (h.Clear).Max = (NewHistogram []).Max ∧
    (h.Clear).Mean = (NewHistogram []).Mean ∧
    (h.Clear).Variance = (NewHistogram []).Variance ∧
    (h.Clear).StdDev f = (NewHistogram []).StdDev f ∧
    (h.Clear).Percentiles ps = (NewHistogram []).Percentiles ps ∧
    (h.Clear).Values = (NewHistogram []).Values :=
  ⟨rfl, rfl, rfl, rfl, rfl, rfl, rfl, rfl, rfl⟩

/-! ## Claim C6 -/

/-- C6: `Percentiles` returns exactly one entry per requested percentile;
when `count = 0` the result is all zeros; entries follow the request order
(the result over a concatenation of request lists is the concatenation of
the results). -/
theorem C6_percentiles_shape (h : Histogram) (ps ps' : List ℚ) :
    (h.Percentiles ps).length = ps.length ∧
      (h.count = 0 → h.Percentiles ps = List.replicate ps.length 0) ∧
      h.Percentiles (ps ++ ps') = h.Percentiles ps ++ h.Percentiles ps' := by
  refine ⟨?_, ?_, ?_⟩
  · unfold Histogram.Percentiles
    by_cases hc : h.count = 0 <;> simp [hc]
  · intro hc
    simp [Histogram.Percentiles, hc, List.map_const]
  · unfold Histogram.Percentiles
    by_cases hc : h.count = 0 <;> simp [hc]

/-- C6 witness: two percentiles requested from an empty Histogram give
`[0, 0]`. -/
theorem C6_percentiles_shape_witness :
    (NewHistogram []).Percentiles [1/2, 9/10] = List.replicate 2 0 := by
  have h := (C6_percentiles_shape (NewHistogram []) [1/2, 9/10] []).2.1
  simpa using h rfl

/-! ## Welford invariants (helper lemmas) -/

/-- Invariant maintained by `Update`: the Welford `S` accumulator is
non-negative, and is exactly `0` while fewer than two values have been
observed. -/
def HistInv (h : Histogram) : Prop :=
  0 ≤ h.varianceS ∧ (h.count ≤ 1 → h.varianceS = 0)

theorem histInv_new (s0 : List ℚ) : HistInv (NewHistogram s0) :=
  ⟨le_refl 0, fun _ => rfl⟩

theorem update_count (su : List ℚ → ℚ → List ℚ) (h : Histogram) (v : ℚ) :
    (h.Update su v).count = h.count + 1 := by
  unfold Histogram.Update
  by_cases hc : h.count + 1 = 1 <;> simp [hc]

theorem updateMany_count (su : List ℚ → ℚ → List ℚ) (vs : List ℚ) :
    ∀ h : Histogram, (h.UpdateMany su vs).count = h.count + vs.length := by
  induction vs with
  | nil => intro h; rfl
  | cons v t ih =>
    intro h
    show ((h.Update su v).UpdateMany su t).count = h.count + (t.length + 1)
    rw [ih, update_count]
    omega

theorem histInv_update (su : List ℚ → ℚ → List ℚ) (h : Histogram) (v : ℚ)
    (hi : HistInv h) : HistInv (h.Update su v) := by
  obtain ⟨h0, h1⟩ := hi
  unfold Histogram.Update
  by_cases hc : h.count + 1 = 1
  · have hcz : h.count = 0 := by omega
    refine ⟨?_, fun _ => ?_⟩ <;> simp [hc, h1 (by omega)]
  · have hc2 : 2 ≤ h.count + 1 := by omega
    simp only [if_neg hc]
    constructor
    · have hcq : (2 : ℚ) ≤ ((h.count + 1 : ℕ) : ℚ) := by exact_mod_cast hc2
      have hpos : (0 : ℚ) < ((h.count + 1 : ℕ) : ℚ) := by linarith
      set c : ℚ := ((h.count + 1 : ℕ) : ℚ) with hcdef
      set d : ℚ := v - h.varianceM with hddef
      have key : d * (v - (h.varianceM + d / c)) = d ^ 2 * (c - 1) / c := by
        field_simp
        ring
      rw [key]
      have hnum : (0 : ℚ) ≤ d ^ 2 * (c - 1) := by
        apply mul_nonneg (sq_nonneg d)
        linarith
      have hterm : (0 : ℚ) ≤ d ^ 2 * (c - 1) / c := div_nonneg hnum (le_of_lt hpos)
      linarith
    · intro hle
      simp only [update_count] at hle
      exact absurd hle (by omega)

theorem histInv_updateMany (su : List ℚ → ℚ → List ℚ) (vs : List ℚ) :
    ∀ h : Histogram, HistInv h → HistInv (h.UpdateMany su vs) := by
  induction vs with
  | nil => intro h hi; exact hi
  | cons v t ih =>
    intro h hi
    exact ih (h.Update su v) (histInv_update su h v hi)

theorem histInv_reachable (su : List ℚ → ℚ → List ℚ) (s0 : List ℚ) (vs : List ℚ) :
    HistInv ((NewHistogram s0).UpdateMany su vs) :=
  histInv_updateMany su vs (NewHistogram s0) (histInv_new s0)

/-! ## Claim C4 -/

theorem stdDev_pos_eq (f : ℚ → ℚ) (h : Histogram) (hc : 0 < h.count) :
    h.StdDev f = mathSqrt f (fdiv h.varianceS ((h.count - 1 : ℕ) : ℚ)) := by
  unfold Histogram.StdDev
  rw [if_pos hc]

theorem variance_pos_eq (h : Histogram) (hc : 1 < h.count) :
    h.Variance = fdiv h.varianceS ((h.count - 1 : ℕ) : ℚ) := by
  unfold Histogram.Variance
  rw [if_neg (by omega : ¬ h.count ≤ 1)]

/-- C4 counterexample: after a single `Update(5)` from a fresh Histogram
(`count = 1`), `StdDev()` computes `math.Sqrt(0.0 / 0.0) = NaN`, which is
neither `0` nor `sqrt(Variance()) = sqrt(0) = 0` as the claim requires for
`count ≤ 1`. -/
theorem C4_counterexample :
    (Histogram.Update sampleAppend (NewHistogram []) 5).count = 1 ∧
      Histogram.StdDev id (Histogram.Update sampleAppend (NewHistogram []) 5) = GoFloat.nan ∧
      Histogram.StdDev id (Histogram.Update sampleAppend (NewHistogram []) 5) ≠ GoFloat.val 0 ∧
      mathSqrt id (Histogram.Variance (Histogram.Update sampleAppend (NewHistogram []) 5)) =
        GoFloat.val 0 := by
  have hst : Histogram.StdDev id (Histogram.Update sampleAppend (NewHistogram []) 5) =
      GoFloat.nan := by
    norm_num [Histogram.Update, NewHistogram, Histogram.StdDev, sampleAppend, fdiv, mathSqrt]
  refine ⟨rfl, hst, ?_, ?_⟩
  · rw [hst]
    exact fun hx => GoFloat.noConfusion hx
  · norm_num [Histogram.Update, NewHistogram, Histogram.Variance, sampleAppend, mathSqrt]

/-- C4 (amended): for every Histogram state reachable by `Update` calls from
a fresh Histogram, `StdDev()` equals `sqrt(Variance())` except when
`count = 1`: there `Variance()` is `0` but `StdDev()` is NaN (it computes
`sqrt(0.0/0.0)`).  For `count = 0` both are `0`, and for `count > 1` both
divide the Welford `S` accumulator by `count - 1`. -/
theorem C4_stddev_amended (f : ℚ → ℚ) (su : List ℚ → ℚ → List ℚ)
    (s0 : List ℚ) (vs : List ℚ) (h : Histogram)
    (hreach : h = (NewHistogram s0).UpdateMany su vs) (hf : f 0 = 0) :
    (h.count ≠ 1 → h.StdDev f = mathSqrt f h.Variance) ∧
    (h.count = 1 → h.Variance = GoFloat.val 0 ∧ h.StdDev f = GoFloat.nan) ∧
    (h.count = 0 → h.Variance = GoFloat.val 0 ∧ h.StdDev f = GoFloat.val 0) ∧
    (1 < h.count →
      h.Variance = GoFloat.val (h.varianceS / ((h.count - 1 : ℕ) : ℚ)) ∧
      h.StdDev f = mathSqrt f (GoFloat.val (h.varianceS / ((h.count - 1 : ℕ) : ℚ)))) := by
  have hinv : HistInv h := hreach ▸ histInv_reachable su s0 vs
  have hval : ∀ hcnt : 1 < h.count,
      fdiv h.varianceS ((h.count - 1 : ℕ) : ℚ) =
        GoFloat.val (h.varianceS / ((h.count - 1 : ℕ) : ℚ)) := by
    intro hcnt
    have : ((h.count - 1 : ℕ) : ℚ) ≠ 0 := by
      have : 1 ≤ h.count - 1 := by omega
      positivity
    simp [fdiv, this]
  refine ⟨?_, ?_, ?_, ?_⟩
  · intro hne
    rcases Nat.lt_or_ge h.count 1 with hlt | hge
    · have hz : h.count = 0 := by omega
      simp [Histogram.StdDev, Histogram.Variance, hz, mathSqrt, hf]
    · have h2 : 1 < h.count := by omega
      rw [stdDev_pos_eq f h (by omega), variance_pos_eq h h2]
  · intro h1
    have hS : h.varianceS = 0 := hinv.2 (by omega)
    have hd : (h.count - 1 : ℕ) = 0 := by omega
    constructor
    · simp [Histogram.Variance, h1]
    · rw [stdDev_pos_eq f h (by omega), hS, hd]
      norm_num [fdiv, mathSqrt]
  · intro h0
    constructor
    · simp [Histogram.Variance, h0]
    · simp [Histogram.StdDev, h0]
  · intro h2
    constructor
    · rw [variance_pos_eq h h2, hval h2]
    · rw [stdDev_pos_eq f h (by omega), hval h2]

/-- C4 witness: with two observations (`count = 2`) the amended relation
`StdDev = sqrt(Variance)` holds concretely. -/
theorem C4_stddev_amended_witness :
    ((NewHistogram []).UpdateMany sampleAppend [5, 7]).StdDev id =
      mathSqrt id ((NewHistogram []).UpdateMany sampleAppend [5, 7]).Variance := by
  have hc : ((NewHistogram []).UpdateMany sampleAppend [5, 7]).count = 2 := by
    rw [updateMany_count]
    rfl
  exact (C4_stddev_amended id sampleAppend [] [5, 7] _ rfl rfl).1 (by omega)

/-! ## Claim C10 -/

/-- C10: for every Histogram state reachable from a fresh Histogram by
`Update` calls, the Welford `S` accumulator is non-negative (the model uses
exact rational arithmetic), and for `count ≥ 2` both `Variance()` and
`StdDev()` return non-negative finite values (for any model `f` of
`math.Sqrt` that is non-negative on non-negative arguments). -/
theorem C10_variance_nonneg (f : ℚ → ℚ) (su : List ℚ → ℚ → List ℚ)
    (s0 : List ℚ) (vs : List ℚ) (h : Histogram)
    (hreach : h = (NewHistogram s0).UpdateMany su vs)
    (hf : ∀ q : ℚ, 0 ≤ q → 0 ≤ f q) :
    0 ≤ h.varianceS ∧
      (2 ≤ h.count →
        (∃ q : ℚ, 0 ≤ q ∧ h.Variance = GoFloat.val q) ∧
        (∃ q : ℚ, 0 ≤ q ∧ h.StdDev f = GoFloat.val q)) := by
  have hinv : HistInv h := hreach ▸ histInv_reachable su s0 vs
  refine ⟨hinv.1, fun h2 => ?_⟩
  have hden : (0 : ℚ) < ((h.count - 1 : ℕ) : ℚ) := by
    have : 1 ≤ h.count - 1 := by omega
    exact_mod_cast Nat.lt_of_lt_of_le Nat.zero_lt_one this
  have hq : 0 ≤ h.varianceS / ((h.count - 1 : ℕ) : ℚ) := div_nonneg hinv.1 (le_of_lt hden)
  have hfd : fdiv h.varianceS ((h.count - 1 : ℕ) : ℚ) =
      GoFloat.val (h.varianceS / ((h.count - 1 : ℕ) : ℚ)) := by
    simp [fdiv, ne_of_gt hden]
  constructor
  · refine ⟨h.varianceS / ((h.count - 1 : ℕ) : ℚ), hq, ?_⟩
    rw [variance_pos_eq h (by omega), hfd]
  · refine ⟨f (h.varianceS / ((h.count - 1 : ℕ) : ℚ)), hf _ hq, ?_⟩
    rw [stdDev_pos_eq f h (by omega), hfd]
    simp only [mathSqrt]
    rw [if_neg (not_lt.mpr hq)]

/-- C10 witness: the non-negativity facts evaluated after feeding `[1, 2]`. -/
theorem C10_variance_nonneg_witness :
    0 ≤ ((NewHistogram []).UpdateMany sampleAppend [1, 2]).varianceS ∧
      (∃ q : ℚ, 0 ≤ q ∧ ((NewHistogram []).UpdateMany sampleAppend [1, 2]).Variance = GoFloat.val q) ∧
      (∃ q : ℚ, 0 ≤ q ∧ ((NewHistogram []).UpdateMany sampleAppend [1, 2]).StdDev id = GoFloat.val q) := by
  have h := C10_variance_nonneg id sampleAppend [] [1, 2] _ rfl (fun q hq => hq)
  refine ⟨h.1, h.2 ?_⟩
  rw [updateMany_count]
  rfl

/-! ## Aggregate bookkeeping lemmas (for C8) -/

/-- One `Update` on a non-fresh Histogram (`count ≥ 1`): min/max fold in the
new value, the sum accumulates, and the Welford accumulators follow
`M' = M + (v - M)/count'` and `S' = S + (v - M)*(v - M')` with `count'` the
incremented count. -/
theorem update_welford (su : List ℚ → ℚ → List ℚ) (h : Histogram) (v : ℚ)
    (hc : 1 ≤ h.count) :
    (h.Update su v).varianceM =
        h.varianceM + (v - h.varianceM) / ((h.count + 1 : ℕ) : ℚ) ∧
      (h.Update su v).varianceS =
        h.varianceS + (v - h.varianceM) * (v - (h.Update su v).varianceM) ∧
      (h.Update su v).min = min h.min v ∧
      (h.Update su v).max = max h.max v ∧
      (h.Update su v).sum = h.sum + v := by
  have hne : ¬ h.count + 1 = 1 := by omega
  unfold Histogram.Update
  rw [if_neg hne]
  refine ⟨rfl, rfl, ?_, ?_, rfl⟩
  · by_cases hv : v < h.min
    · rw [if_pos hv, min_eq_right (le_of_lt hv)]
    · rw [if_neg hv, min_eq_left (not_lt.mp hv)]
  · by_cases hv : h.max < v
    · rw [if_pos hv, max_eq_right (le_of_lt hv)]
    · rw [if_neg hv, max_eq_left (not_lt.mp hv)]

/-- The first `Update` on a fresh Histogram sets min, max and the Welford
mean to the observed value and leaves `S = 0`. -/
theorem update_first (su : List ℚ → ℚ → List ℚ) (s0 : List ℚ) (v : ℚ) :
    ((NewHistogram s0).Update su v).count = 1 ∧
      ((NewHistogram s0).Update su v).min = v ∧
      ((NewHistogram s0).Update su v).max = v ∧
      ((NewHistogram s0).Update su v).sum = v ∧
      ((NewHistogram s0).Update su v).varianceM = v ∧
      ((NewHistogram s0).Update su v).varianceS = 0 ∧
      ((NewHistogram s0).Update su v).sample = su s0 v := by
  unfold Histogram.Update NewHistogram
  norm_num

/-- Folding further observations into a Histogram that has seen at least
one value folds min/max and accumulates the sum. -/
theorem updateMany_facts (su : List ℚ → ℚ → List ℚ) (vs : List ℚ) :
    ∀ h : Histogram, 1 ≤ h.count →
      (h.UpdateMany su vs).min = vs.foldl min h.min ∧
      (h.UpdateMany su vs).max = vs.foldl max h.max ∧
      (h.UpdateMany su vs).sum = h.sum + vs.sum := by
  induction vs with
  | nil => intro h _; exact ⟨rfl, rfl, by simp [Histogram.UpdateMany]⟩
  | cons v t ih =>
    intro h hc
    have hc' : 1 ≤ (h.Update su v).count := by rw [update_count]; omega
    obtain ⟨hM, hS, hmin, hmax, hsum⟩ := update_welford su h v hc
    obtain ⟨imin, imax, isum⟩ := ih (h.Update su v) hc'
    have hstep : h.UpdateMany su (v :: t) = (h.Update su v).UpdateMany su t := rfl
    refine ⟨?_, ?_, ?_⟩
    · rw [hstep, imin, hmin, List.foldl_cons]
    · rw [hstep, imax, hmax, List.foldl_cons]
    · rw [hstep, isum, hsum, List.sum_cons]
      ring

/-- The observation stream `1, 2, …, k`. -/
def oneTo (k : ℕ) : List ℚ :=
  (List.range k).map (fun i => ((i + 1 : ℕ) : ℚ))

/-- Closed forms of every Histogram field after feeding `1..k` (`k ≥ 1`):
`count = k`, `sum = k(k+1)/2`, `min = 1`, `max = k`, Welford mean
`M = (k+1)/2` and Welford sum of squares `S = k(k²-1)/12` — all in exact
arithmetic. -/
theorem oneTo_closed (su : List ℚ → ℚ → List ℚ) :
    ∀ k : ℕ, 1 ≤ k →
      ((NewHistogram []).UpdateMany su (oneTo k)).count = k ∧
      ((NewHistogram []).UpdateMany su (oneTo k)).sum = (k : ℚ) * ((k : ℚ) + 1) / 2 ∧
      ((NewHistogram []).UpdateMany su (oneTo k)).min = 1 ∧
      ((NewHistogram []).UpdateMany su (oneTo k)).max = (k : ℚ) ∧
      ((NewHistogram []).UpdateMany su (oneTo k)).varianceM = ((k : ℚ) + 1) / 2 ∧
      ((NewHistogram []).UpdateMany su (oneTo k)).varianceS =
        (k : ℚ) * ((k : ℚ) ^ 2 - 1) / 12 := by
  intro k
  induction k with
  | zero => omega
  | succ n ih =>
    intro _
    rcases Nat.eq_zero_or_pos n with hn0 | hn1
    · subst hn0
      have h1 : oneTo 1 = [(1 : ℚ)] := by
        simp [oneTo, List.range_succ]
      rw [h1]
      have hu : (NewHistogram []).UpdateMany su [(1 : ℚ)] =
          (NewHistogram []).Update su (1 : ℚ) := rfl
      rw [hu]
      unfold Histogram.Update NewHistogram
      norm_num
    · have hsplit : oneTo (n + 1) = oneTo n ++ [(n : ℚ) + 1] := by
        simp [oneTo, List.range_succ]
      have hstep : (NewHistogram []).UpdateMany su (oneTo n ++ [(n : ℚ) + 1]) =
          ((NewHistogram []).UpdateMany su (oneTo n)).Update su ((n : ℚ) + 1) := by
        unfold Histogram.UpdateMany
        rw [List.foldl_append]
        rfl
      obtain ⟨icount, isum, imin, imax, iM, iS⟩ := ih hn1
      have hc : 1 ≤ ((NewHistogram []).UpdateMany su (oneTo n)).count := by omega
      obtain ⟨hM, hS, hmin, hmax, hsum⟩ :=
        update_welford su ((NewHistogram []).UpdateMany su (oneTo n)) ((n : ℚ) + 1) hc
      have hnq : (0 : ℚ) ≤ (n : ℚ) := Nat.cast_nonneg n
      have hne : ((n : ℚ) + 1) ≠ 0 := by positivity
      have hcast : (((NewHistogram []).UpdateMany su (oneTo n)).count + 1 : ℕ) = n + 1 := by
        omega
      have hMval : (((NewHistogram []).UpdateMany su (oneTo n)).Update su ((n : ℚ) + 1)).varianceM =
          ((n : ℚ) + 1 + 1) / 2 := by
        rw [hM, iM, hcast]
        push_cast
        field_simp
        ring
      rw [hsplit, hstep]
      refine ⟨?_, ?_, ?_, ?_, ?_, ?_⟩
      · rw [update_count, icount]
      · rw [hsum, isum]
        push_cast
        ring
      · rw [hmin, imin, min_eq_left (by linarith)]
      · rw [hmax, imax, max_eq_right (by linarith)]
        push_cast
        ring
      · rw [hMval]
        push_cast
        ring
      · rw [hS, hMval, iS, iM]
        push_cast
        ring

/-! ## Claim C8 -/

/-- C8: feeding a non-empty stream `v :: vs` into a fresh Histogram gives
`Count = n`, `Sum = Σ`, `Min`/`Max` the running minimum/maximum and
`Mean = Σ/n`; the first observation sets min, max and the Welford mean to
the value, later observations follow the Welford recurrences; and feeding
`1..100` gives `Count = 100`, `Mean = 50.5`, `Min = 1`, `Max = 100` and
`Variance = 2525/3` (the sample variance of `1..100`). -/
theorem C8_update_aggregates (su : List ℚ → ℚ → List ℚ) (v : ℚ) (vs : List ℚ)
    (h : Histogram) (hfeed : h = (NewHistogram []).UpdateMany su (v :: vs)) :
    h.Count = vs.length + 1 ∧
    h.Sum = v + vs.sum ∧
    h.Min = GoFloat.val (vs.foldl min v) ∧
    h.Max = GoFloat.val (vs.foldl max v) ∧
    h.Mean = (v + vs.sum) / ((vs.length + 1 : ℕ) : ℚ) ∧
    (((NewHistogram []).Update su v).min = v ∧ ((NewHistogram []).Update su v).max = v ∧
      ((NewHistogram []).Update su v).varianceM = v ∧
      ((NewHistogram []).Update su v).varianceS = 0) ∧
    (∀ (g : Histogram) (w : ℚ), 1 ≤ g.count →
      (g.Update su w).varianceM = g.varianceM + (w - g.varianceM) / ((g.count + 1 : ℕ) : ℚ) ∧
      (g.Update su w).varianceS =
        g.varianceS + (w - g.varianceM) * (w - (g.Update su w).varianceM)) ∧
    ((NewHistogram []).UpdateMany su (oneTo 100)).Count = 100 ∧
    ((NewHistogram []).UpdateMany su (oneTo 100)).Mean = 101 / 2 ∧
    ((NewHistogram []).UpdateMany su (oneTo 100)).Min = GoFloat.val 1 ∧
    ((NewHistogram []).UpdateMany su (oneTo 100)).Max = GoFloat.val 100 ∧
    ((NewHistogram []).UpdateMany su (oneTo 100)).Variance = GoFloat.val (2525 / 3) := by
  obtain ⟨f1count, f1min, f1max, f1sum, f1M, f1S, f1sample⟩ := update_first su [] v
  have hstep : (NewHistogram []).UpdateMany su (v :: vs) =
      ((NewHistogram []).Update su v).UpdateMany su vs := rfl
  have hcount : h.count = vs.length + 1 := by
    rw [hfeed, hstep, updateMany_count, f1count]
    omega
  obtain ⟨hmin, hmax, hsum⟩ :=
    updateMany_facts su vs ((NewHistogram []).Update su v) (by omega)
  obtain ⟨kcount, ksum, kmin, kmax, kM, kS⟩ := oneTo_closed su 100 (by omega)
  refine ⟨?_, ?_, ?_, ?_, ?_, ⟨f1min, f1max, f1M, f1S⟩, ?_, ?_, ?_, ?_, ?_, ?_⟩
  · exact hcount
  · show h.sum = v + vs.sum
    rw [hfeed, hstep, hsum, f1sum]
  · show h.Min = GoFloat.val (vs.foldl min v)
    unfold Histogram.Min
    rw [if_neg (by omega : ¬ h.count = 0), hfeed, hstep, hmin, f1min]
  · show h.Max = GoFloat.val (vs.foldl max v)
    unfold Histogram.Max
    rw [if_neg (by omega : ¬ h.count = 0), hfeed, hstep, hmax, f1max]
  · show h.Mean = (v + vs.sum) / ((vs.length + 1 : ℕ) : ℚ)
    unfold Histogram.Mean
    rw [if_pos (by omega : 0 < h.count), hcount]
    rw [hfeed, hstep, hsum, f1sum]
  · intro g w hgc
    obtain ⟨wM, wS, _, _, _⟩ := update_welford su g w hgc
    exact ⟨wM, wS⟩
  · exact kcount
  · unfold Histogram.Mean
    rw [if_pos (by omega : 0 < ((NewHistogram []).UpdateMany su (oneTo 100)).count),
      kcount, ksum]
    norm_num
  · unfold Histogram.Min
    rw [if_neg (by omega : ¬ ((NewHistogram []).UpdateMany su (oneTo 100)).count = 0), kmin]
  · unfold Histogram.Max
    rw [if_neg (by omega : ¬ ((NewHistogram []).UpdateMany su (oneTo 100)).count = 0), kmax]
    norm_num
  · rw [variance_pos_eq _ (by omega : 1 < ((NewHistogram []).UpdateMany su (oneTo 100)).count),
      kS, kcount]
    norm_num [fdiv]

/-- C8 witness: the aggregate accessors evaluated after feeding `[3, 1]`,
and the `1..100` variance fact. -/
theorem C8_update_aggregates_witness :
    ((NewHistogram []).UpdateMany sampleAppend [3, 1]).Count = 2 ∧
      ((NewHistogram []).UpdateMany sampleAppend [3, 1]).Sum = 4 ∧
      ((NewHistogram []).UpdateMany sampleAppend [3, 1]).Min = GoFloat.val 1 ∧
      ((NewHistogram []).UpdateMany sampleAppend (oneTo 100)).Variance =
        GoFloat.val (2525 / 3) := by
  have hm := C8_update_aggregates sampleAppend 3 [1] _ rfl
  refine ⟨hm.1, ?_, ?_, hm.2.2.2.2.2.2.2.2.2.2.2⟩
  · rw [hm.2.1]
    norm_num
  · rw [hm.2.2.1]
    norm_num [List.foldl_cons, List.foldl_nil, min_def]

/-! ## Sorted-snapshot lemmas (for C5) -/

theorem sortAsc_perm (l : List ℚ) : List.Perm (sortAsc l) l :=
  List.perm_insertionSort (· ≤ ·) l

theorem sortAsc_sorted (l : List ℚ) : List.Sorted (· ≤ ·) (sortAsc l) :=
  List.sorted_insertionSort (· ≤ ·) l

theorem headD_mem {l : List ℚ} (h : l ≠ []) : l.headD 0 ∈ l := by
  cases l with
  | nil => exact absurd rfl h
  | cons a t => simp

theorem getLastD_mem {l : List ℚ} (h : l ≠ []) : l.getLastD 0 ∈ l := by
  cases l with
  | nil => exact absurd rfl h
  | cons a t =>
    rw [List.getLastD_cons]
    exact List.getLastD_mem_cons t a

theorem sorted_headD_le {l : List ℚ} (hs : List.Sorted (· ≤ ·) l) :
    ∀ x ∈ l, l.headD 0 ≤ x := by
  cases l with
  | nil => intro x hx; cases hx
  | cons a t =>
    intro x hx
    rcases List.mem_cons.mp hx with hxa | hxt
    · subst hxa; exact le_refl x
    · exact List.rel_of_sorted_cons hs x hxt

theorem sorted_le_getLastD {l : List ℚ} (hs : List.Sorted (· ≤ ·) l) :
    ∀ x ∈ l, x ≤ l.getLastD 0 := by
  induction l with
  | nil => intro x hx; cases hx
  | cons a t ih =>
    intro x hx
    cases t with
    | nil =>
      rcases List.mem_cons.mp hx with hxa | hxt
      · subst hxa; exact le_refl x
      · cases hxt
    | cons b t2 =>
      rw [List.getLastD_cons]
      have hlast : (b :: t2).getLastD a ∈ b :: t2 := by
        rw [List.getLastD_cons]
        exact List.getLastD_mem_cons t2 b
      rcases List.mem_cons.mp hx with hxa | hxt
      · subst hxa
        exact List.rel_of_sorted_cons hs _ hlast
      · have hih := ih (List.Sorted.of_cons hs) x hxt
        rw [List.getLastD_cons] at hih
        rw [List.getLastD_cons]
        exact hih

/-- The loop body of the source's `Percentiles` agrees pointwise with the
spec's percentile selection rule: for non-negative positions Go's `int`
truncation coincides with `floor`, so the branch conditions
`int(pos) < 1` / `int(pos) ≥ n` match `pos < 1` / `pos ≥ n`, and the
interpolation uses the elements at ranks `⌊pos⌋` and `⌊pos⌋ + 1`. -/
theorem percentileScore_eq_spec (values : List ℚ) (p : ℚ) :
    percentileScore values p = specPercentile values p := by
  simp only [percentileScore, specPercentile]
  by_cases h1 : p * ((values.length : ℚ) + 1) < 1
  · have htr : itrunc (p * ((values.length : ℚ) + 1)) < 1 := by
      unfold itrunc
      by_cases h0 : 0 ≤ p * ((values.length : ℚ) + 1)
      · rw [if_pos h0]
        exact Int.floor_lt.mpr (by exact_mod_cast h1)
      · rw [if_neg h0]
        have hc : ⌈p * ((values.length : ℚ) + 1)⌉ ≤ 0 :=
          Int.ceil_le.mpr (by push_cast; exact le_of_lt (not_le.mp h0))
        omega
    rw [if_pos htr, if_pos h1]
  · have h1' : (1 : ℚ) ≤ p * ((values.length : ℚ) + 1) := not_lt.mp h1
    have h0 : (0 : ℚ) ≤ p * ((values.length : ℚ) + 1) := le_trans zero_le_one h1'
    have htr : itrunc (p * ((values.length : ℚ) + 1)) =
        ⌊p * ((values.length : ℚ) + 1)⌋ := if_pos h0
    have hge1 : (1 : ℤ) ≤ ⌊p * ((values.length : ℚ) + 1)⌋ :=
      Int.le_floor.mpr (by exact_mod_cast h1')
    rw [htr, if_neg (not_lt.mpr hge1), if_neg h1]
    by_cases h2 : (values.length : ℚ) ≤ p * ((values.length : ℚ) + 1)
    · have hfl : (values.length : ℤ) ≤ ⌊p * ((values.length : ℚ) + 1)⌋ :=
        Int.le_floor.mpr (by exact_mod_cast h2)
      rw [if_pos hfl, if_pos h2]
    · have hfl : ¬ (values.length : ℤ) ≤ ⌊p * ((values.length : ℚ) + 1)⌋ := by
        intro hcon
        exact h2 (by exact_mod_cast Int.le_floor.mp hcon)
      rw [if_neg hfl, if_neg h2]

/-- Requesting percentile `0` selects the first element of the sorted
snapshot. -/
theorem percentileScore_zero (values : List ℚ) :
    percentileScore values 0 = values.headD 0 := by
  unfold percentileScore itrunc
  norm_num

/-- Requesting percentile `1` selects the last element of the sorted
snapshot (for a non-empty snapshot). -/
theorem percentileScore_one (values : List ℚ) (hne : values ≠ []) :
    percentileScore values 1 = values.getLastD 0 := by
  have hn : 1 ≤ values.length := List.length_pos.mpr hne
  simp only [percentileScore]
  have hpos : (1 : ℚ) * ((values.length : ℚ) + 1) = ((values.length + 1 : ℕ) : ℚ) := by
    push_cast
    ring
  rw [hpos]
  have htr : itrunc ((values.length + 1 : ℕ) : ℚ) = (values.length : ℤ) + 1 := by
    unfold itrunc
    rw [if_pos (by positivity)]
    rw [Int.floor_natCast]
    push_cast
    ring
  rw [htr]
  rw [if_neg (by omega), if_pos (by omega)]

/-! ## Claim C5 -/

/-- C5: for a Histogram with `count ≠ 0` and a non-empty sample snapshot,
`Percentiles` computes exactly the spec's rule (sort ascending,
`pos = p(n+1)`, minimum below rank 1, maximum at or above rank `n`, linear
interpolation between the neighbouring ranks otherwise) for each requested
percentile in order; in particular `Percentiles([0])` is the minimum of the
snapshot and `Percentiles([1])` its maximum. -/
theorem C5_percentiles_spec (h : Histogram) (ps : List ℚ)
    (hc : h.count ≠ 0) (hs : h.sample ≠ []) :
    h.Percentiles ps = ps.map (specPercentile (sortAsc h.sample)) ∧
      (∃ m, h.Percentiles [0] = [m] ∧ m ∈ h.sample ∧ ∀ x ∈ h.sample, m ≤ x) ∧
      (∃ M, h.Percentiles [1] = [M] ∧ M ∈ h.sample ∧ ∀ x ∈ h.sample, x ≤ M) := by
  have hvne : sortAsc h.sample ≠ [] := by
    intro hcon
    apply hs
    have := (sortAsc_perm h.sample).length_eq
    rw [hcon] at this
    exact List.length_eq_zero.mp this.symm
  have hperm := sortAsc_perm h.sample
  have hsorted := sortAsc_sorted h.sample
  have hfun : percentileScore (sortAsc h.sample) = specPercentile (sortAsc h.sample) :=
    funext (fun p => percentileScore_eq_spec (sortAsc h.sample) p)
  refine ⟨?_, ?_, ?_⟩
  · unfold Histogram.Percentiles
    rw [if_neg hc, hfun]
  · refine ⟨(sortAsc h.sample).headD 0, ?_, ?_, ?_⟩
    · unfold Histogram.Percentiles
      rw [if_neg hc]
      rw [List.map_singleton, percentileScore_zero]
    · exact hperm.subset (headD_mem hvne)
    · intro x hx
      exact sorted_headD_le hsorted x (hperm.mem_iff.mpr hx)
  · refine ⟨(sortAsc h.sample).getLastD 0, ?_, ?_, ?_⟩
    · unfold Histogram.Percentiles
      rw [if_neg hc]
      rw [List.map_singleton, percentileScore_one (sortAsc h.sample) hvne]
    · exact hperm.subset (getLastD_mem hvne)
    · intro x hx
      exact sorted_le_getLastD hsorted x (hperm.mem_iff.mpr hx)

/-- C5 witness: the refinement and the min/max corollaries on the concrete
Histogram fed `[3, 1, 2]`. -/
theorem C5_percentiles_spec_witness :
    ((NewHistogram []).UpdateMany sampleAppend [3, 1, 2]).Percentiles [1/4] =
      [1/4].map (specPercentile (sortAsc ((NewHistogram []).UpdateMany sampleAppend [3, 1, 2]).sample)) ∧
      (∃ m, ((NewHistogram []).UpdateMany sampleAppend [3, 1, 2]).Percentiles [0] = [m] ∧
        m ∈ ((NewHistogram []).UpdateMany sampleAppend [3, 1, 2]).sample ∧
        ∀ x ∈ ((NewHistogram []).UpdateMany sampleAppend [3, 1, 2]).sample, m ≤ x) ∧
      (∃ M, ((NewHistogram []).UpdateMany sampleAppend [3, 1, 2]).Percentiles [1] = [M] ∧
        M ∈ ((NewHistogram []).UpdateMany sampleAppend [3, 1, 2]).sample ∧
        ∀ x ∈ ((NewHistogram []).UpdateMany sampleAppend [3, 1, 2]).sample, x ≤ M) := by
  have hc : ((NewHistogram []).UpdateMany sampleAppend [3, 1, 2]).count = 3 := by
    rw [updateMany_count]
    rfl
  have hsam : ((NewHistogram []).UpdateMany sampleAppend [3, 1, 2]).sample = [3, 1, 2] := rfl
  exact C5_percentiles_spec _ [1/4] (by omega) (by rw [hsam]; simp)
